import Mathlib

/-!
# Verification of the Monte Carlo VaR convergence scripts

Shallow embedding of the two Python source files
`monte-carlo-analysis/monte_carlo_var.py` (multi-trial variant) and
`monte_carlo_var_analysis/monte_carlo_var.py` (single-trial variant).

Machine floats are modelled by real numbers; the IEEE special values that
`scipy` / `numpy` return on invalid inputs (`nan`, `±inf`) are modelled
explicitly by the type `PyFloat`, so that the difference between "raises an
error" and "silently returns a non-finite value" is visible in the model.
The pseudo-random generator `np.random.normal` is modelled as an oracle
argument supplying the drawn sample for each call site.
-/

open MeasureTheory Set ProbabilityTheory
open scoped NNReal

namespace MCVaR

/-- A Python float result: either an ordinary (real) value, or one of the
IEEE special values that numpy/scipy produce on invalid inputs.  No
constructor corresponds to a raised exception: a function returning
`PyFloat` completes normally on every input. -/
inductive PyFloat where
  | val : ℝ → PyFloat
  | posInf : PyFloat
  | negInf : PyFloat
  | nan : PyFloat

/-- Cumulative distribution function of the standard normal distribution,
`Φ(x) = ∫_{-∞}^x (2π)^{-1/2} exp(-t²/2) dt`, written with Mathlib's
`gaussianPDFReal 0 1` (mean `0`, variance `1`). -/
noncomputable def stdNormalCDF (x : ℝ) : ℝ :=
  ∫ t in Iic x, gaussianPDFReal 0 1 t

/-- Quantile function (inverse CDF) of the standard normal distribution,
defined as the infimum of the upper level set of `stdNormalCDF`.  For
`p ∈ (0,1)` this is the unique `x` with `Φ(x) = p` (theorem
`stdNormalCDF_stdNormalPPF`); outside `(0,1)` the level set is empty or
unbounded below, and `Real.sInf` returns the junk value `0`. -/
noncomputable def stdNormalPPF (p : ℝ) : ℝ :=
  sInf {x : ℝ | p ≤ stdNormalCDF x}

/-- The real number that `scipy.stats.norm.ppf(q, loc, scale)` computes for
valid arguments (`0 < q < 1`, `scale > 0`): the `q`-quantile of the normal
distribution with mean `loc` and standard deviation `scale`. -/
noncomputable def normQuantile (q loc scale : ℝ) : ℝ :=
  loc + scale * stdNormalPPF q

/-- Model of `scipy.stats.norm.ppf(q, loc=loc, scale=scale)`, including its
documented behaviour on invalid arguments: `nan` for a non-positive `scale`,
`-inf` at `q = 0`, `+inf` at `q = 1`, `nan` for `q` outside `[0, 1]`.  In
every case a float is returned; no exception is raised. -/
noncomputable def norm_ppf (q loc scale : ℝ) : PyFloat :=
  if scale ≤ 0 then .nan
  else if q = 0 then .negInf
  else if q = 1 then .posInf
  else if q < 0 ∨ 1 < q then .nan
  else .val (normQuantile q loc scale)

/-- Embedding of `calculate_analytical_var(mu, sigma, confidence_level)`:
the body is the single call
`return stats.norm.ppf(1 - confidence_level, loc=mu, scale=sigma)`. -/
noncomputable def calculate_analytical_var (mu sigma confidence_level : ℝ) : PyFloat :=
  norm_ppf (1 - confidence_level) mu sigma

/-- The real value produced by `calculate_analytical_var` in the valid
parameter region `sigma > 0`, `confidence_level ∈ (0,1)` (lemma
`calculate_analytical_var_val`).  The embeddings of the simulation
functions use this value for the variable `analytical_var`. -/
noncomputable def analyticalVaR (mu sigma confidence_level : ℝ) : ℝ :=
  normQuantile (1 - confidence_level) mu sigma

/-- Model of `np.percentile(xs, p)` with the default linear-interpolation
method: sort the sample ascending, take the virtual position
`h = p/100 * (n-1)`, and interpolate linearly between the order statistics
bracketing `h`. -/
noncomputable def npPercentile (xs : List ℝ) (p : ℝ) : ℝ :=
  let s := xs.mergeSort
  let h := p / 100 * ((xs.length : ℝ) - 1)
  let i := ⌊h⌋₊
  let g := h - i
  s.getD i 0 + g * (s.getD (i + 1) 0 - s.getD i 0)

/-- Model of `np.mean` on a 1-dimensional array. -/
noncomputable def npMean (xs : List ℝ) : ℝ := xs.sum / xs.length

/-- Model of `np.log` on a scalar: `-inf` at `0`, `nan` for negative
arguments (numpy emits a RuntimeWarning but still returns the float). -/
noncomputable def np_log (x : ℝ) : PyFloat :=
  if x < 0 then .nan else if x = 0 then .negInf else .val (Real.log x)

/-- Embedding of `monte_carlo_var_simulation(mu, sigma, confidence_level,
sample_sizes, num_trials)` from the multi-trial file
`monte-carlo-analysis/monte_carlo_var.py`.

`draws i t` is the oracle for the call `np.random.normal(mu, sigma, n)`
made in trial `t` of the `i`-th sample size (the drawn sample is intended
to have length `sample_sizes[i]`; the length plays no role in the
computation itself).  Per trial the code computes the empirical
`(1 - confidence_level)*100` percentile of the drawn returns and its
absolute error against `analytical_var`; per sample size it appends the
means of the per-trial estimates and of the per-trial errors.  Returns
`(analytical_var, estimated_vars_means, avg_errors)`. -/
noncomputable def monte_carlo_var_simulation (mu sigma confidence_level : ℝ)
    (sample_sizes : List ℕ) (draws : ℕ → ℕ → List ℝ) (num_trials : ℕ) :
    ℝ × List ℝ × List ℝ :=
  let analytical_var := analyticalVaR mu sigma confidence_level
  let results := (List.range sample_sizes.length).map fun i =>
    let trials := (List.range num_trials).map fun t =>
      let estimated_var := npPercentile (draws i t) ((1 - confidence_level) * 100)
      (estimated_var, |estimated_var - analytical_var|)
    (npMean (trials.map Prod.fst), npMean (trials.map Prod.snd))
  (analytical_var, results.map Prod.fst, results.map Prod.snd)

/-- Embedding of `monte_carlo_var_simulation(mu, sigma, confidence_level,
sample_sizes)` from the single-trial file
`monte_carlo_var_analysis/monte_carlo_var.py`: one draw per sample size,
no averaging.  `draws i` is the oracle for the `i`-th call
`np.random.normal(mu, sigma, n)`.  Returns
`(analytical_var, estimated_vars, errors)`. -/
noncomputable def monte_carlo_var_simulation_single (mu sigma confidence_level : ℝ)
    (sample_sizes : List ℕ) (draws : ℕ → List ℝ) :
    ℝ × List ℝ × List ℝ :=
  let analytical_var := analyticalVaR mu sigma confidence_level
  let results := (List.range sample_sizes.length).map fun i =>
    let estimated_var := npPercentile (draws i) ((1 - confidence_level) * 100)
    (estimated_var, |estimated_var - analytical_var|)
  (analytical_var, results.map Prod.fst, results.map Prod.snd)

/-- Slope of `np.polyfit(xs, ys, 1)`: the closed-form ordinary
least-squares solution `(n·Σxy - Σx·Σy) / (n·Σx² - (Σx)²)`. -/
noncomputable def polyfitSlope (xs ys : List ℝ) : ℝ :=
  ((xs.length : ℝ) * (List.zipWith (· * ·) xs ys).sum - xs.sum * ys.sum) /
    ((xs.length : ℝ) * (xs.map fun x => x ^ 2).sum - xs.sum ^ 2)

/-- Intercept of `np.polyfit(xs, ys, 1)`: `(Σy - slope·Σx) / n`. -/
noncomputable def polyfitIntercept (xs ys : List ℝ) : ℝ :=
  (ys.sum - polyfitSlope xs ys * xs.sum) / (xs.length : ℝ)

/-! ### Analytic facts about the standard normal CDF and quantile -/

theorem integrable_stdGauss : Integrable (gaussianPDFReal 0 1) :=
  integrable_gaussianPDFReal 0 1

theorem strictMono_stdNormalCDF : StrictMono stdNormalCDF := by
  intro a b hab
  have hsub : stdNormalCDF b - stdNormalCDF a = ∫ x in a..b, gaussianPDFReal 0 1 x :=
    intervalIntegral.integral_Iic_sub_Iic integrable_stdGauss.integrableOn
      integrable_stdGauss.integrableOn
  have hpos : 0 < ∫ x in a..b, gaussianPDFReal 0 1 x :=
    intervalIntegral.intervalIntegral_pos_of_pos integrable_stdGauss.intervalIntegrable
      (fun x => gaussianPDFReal_pos 0 1 x one_ne_zero) hab
  linarith

theorem continuous_stdNormalCDF : Continuous stdNormalCDF := by
  have h : ∀ x : ℝ, stdNormalCDF x = (∫ t in (0:ℝ)..x, gaussianPDFReal 0 1 t) + stdNormalCDF 0 := by
    intro x
    have h2 : stdNormalCDF x - stdNormalCDF 0 = ∫ t in (0:ℝ)..x, gaussianPDFReal 0 1 t :=
      intervalIntegral.integral_Iic_sub_Iic integrable_stdGauss.integrableOn
        integrable_stdGauss.integrableOn
    linarith
  rw [show stdNormalCDF
      = fun x => (∫ t in (0:ℝ)..x, gaussianPDFReal 0 1 t) + stdNormalCDF 0 from funext h]
  exact (integrable_stdGauss.continuous_primitive 0).add continuous_const

theorem tendsto_stdNormalCDF_atTop_nat :
    Filter.Tendsto (fun n : ℕ => stdNormalCDF n) Filter.atTop (nhds 1) := by
  have hU : ⋃ n : ℕ, Iic ((n : ℝ)) = univ := by
    ext x
    simp only [mem_iUnion, mem_Iic, mem_univ, iff_true]
    exact exists_nat_ge x
  have h := tendsto_setIntegral_of_monotone (μ := volume) (f := gaussianPDFReal 0 1)
    (s := fun n : ℕ => Iic ((n : ℝ))) (fun _ => measurableSet_Iic)
    (fun a b hab => Iic_subset_Iic.mpr (by exact_mod_cast hab))
    (by rw [hU]; exact integrable_stdGauss.integrableOn)
  rw [hU] at h
  have h1 : ∫ x in (univ : Set ℝ), gaussianPDFReal 0 1 x = 1 := by
    rw [setIntegral_univ]
    exact integral_gaussianPDFReal_eq_one 0 one_ne_zero
  rw [h1] at h
  exact h

theorem tendsto_stdNormalCDF_atBot_nat :
    Filter.Tendsto (fun n : ℕ => stdNormalCDF (-(n : ℝ))) Filter.atTop (nhds 0) := by
  have hI : ⋂ n : ℕ, Iic (-(n : ℝ)) = (∅ : Set ℝ) := by
    ext x
    simp only [mem_iInter, mem_Iic, mem_empty_iff_false, iff_false, not_forall, not_le]
    obtain ⟨n, hn⟩ := exists_nat_gt (-x)
    exact ⟨n, by linarith⟩
  have h := tendsto_setIntegral_of_antitone (μ := volume) (f := gaussianPDFReal 0 1)
    (s := fun n : ℕ => Iic (-(n : ℝ))) (fun _ => measurableSet_Iic)
    (fun a b hab => Iic_subset_Iic.mpr (neg_le_neg (by exact_mod_cast hab)))
    ⟨0, integrable_stdGauss.integrableOn⟩
  rw [hI, setIntegral_empty] at h
  exact h

theorem exists_stdNormalCDF_eq {p : ℝ} (h0 : 0 < p) (h1 : p < 1) :
    ∃ x : ℝ, stdNormalCDF x = p := by
  obtain ⟨m, hm⟩ := (tendsto_stdNormalCDF_atTop_nat.eventually (eventually_gt_nhds h1)).exists
  obtain ⟨n, hn⟩ := (tendsto_stdNormalCDF_atBot_nat.eventually (eventually_lt_nhds h0)).exists
  have hcmp : stdNormalCDF (-(n : ℝ)) < stdNormalCDF (m : ℝ) := lt_trans hn hm
  have hle : -(n : ℝ) ≤ (m : ℝ) := (strictMono_stdNormalCDF.lt_iff_lt.mp hcmp).le
  have hsub := intermediate_value_Icc hle continuous_stdNormalCDF.continuousOn
  obtain ⟨x, _, hx⟩ := hsub ⟨hn.le, hm.le⟩
  exact ⟨x, hx⟩

theorem stdNormalCDF_stdNormalPPF {p : ℝ} (h0 : 0 < p) (h1 : p < 1) :
    stdNormalCDF (stdNormalPPF p) = p := by
  obtain ⟨x, hx⟩ := exists_stdNormalCDF_eq h0 h1
  have hxS : x ∈ {y : ℝ | p ≤ stdNormalCDF y} := by simp [hx]
  have hne : {y : ℝ | p ≤ stdNormalCDF y}.Nonempty := ⟨x, hxS⟩
  obtain ⟨n, hn⟩ := (tendsto_stdNormalCDF_atBot_nat.eventually (eventually_lt_nhds h0)).exists
  have hbdd : BddBelow {y : ℝ | p ≤ stdNormalCDF y} := by
    refine ⟨-(n : ℝ), fun y hy => ?_⟩
    by_contra hcon
    push_neg at hcon
    have hmono := strictMono_stdNormalCDF.monotone hcon.le
    exact absurd (le_trans hy hmono) (not_le.mpr hn)
  have hclosed : IsClosed {y : ℝ | p ≤ stdNormalCDF y} :=
    IsClosed.preimage continuous_stdNormalCDF isClosed_Ici
  have hmem : stdNormalPPF p ∈ {y : ℝ | p ≤ stdNormalCDF y} := hclosed.csInf_mem hne hbdd
  have hle : stdNormalPPF p ≤ x := csInf_le hbdd hxS
  have hmono := strictMono_stdNormalCDF.monotone hle
  exact le_antisymm (hx ▸ hmono) hmem

theorem stdNormalPPF_lt_stdNormalPPF {p q : ℝ} (h0 : 0 < p) (hpq : p < q) (h1 : q < 1) :
    stdNormalPPF p < stdNormalPPF q := by
  have hp := stdNormalCDF_stdNormalPPF h0 (lt_trans hpq h1)
  have hq := stdNormalCDF_stdNormalPPF (lt_trans h0 hpq) h1
  by_contra hcon
  push_neg at hcon
  have hmono := strictMono_stdNormalCDF.monotone hcon
  rw [hp, hq] at hmono
  exact absurd hpq (not_lt.mpr hmono)

theorem stdNormalCDF_zero : stdNormalCDF 0 = 1 / 2 := by
  have heven : ∀ x : ℝ, gaussianPDFReal 0 1 (-x) = gaussianPDFReal 0 1 x := by
    intro x
    simp [gaussianPDFReal, sub_zero, neg_sq]
  have h1 : stdNormalCDF 0 = ∫ x in Ioi (0:ℝ), gaussianPDFReal 0 1 x := by
    have h := integral_comp_neg_Iic (0:ℝ) (gaussianPDFReal 0 1)
    rw [neg_zero] at h
    rw [show stdNormalCDF 0 = ∫ x in Iic (0:ℝ), gaussianPDFReal 0 1 x from rfl, ← h]
    exact setIntegral_congr_fun measurableSet_Iic fun x _ => (heven x).symm
  have h2 : stdNormalCDF 0 + ∫ x in Ioi (0:ℝ), gaussianPDFReal 0 1 x = 1 := by
    rw [show stdNormalCDF 0 = ∫ x in Iic (0:ℝ), gaussianPDFReal 0 1 x from rfl,
      intervalIntegral.integral_Iic_add_Ioi integrable_stdGauss.integrableOn
        integrable_stdGauss.integrableOn]
    exact integral_gaussianPDFReal_eq_one 0 one_ne_zero
  linarith

theorem stdNormalPPF_half : stdNormalPPF (1 / 2) = 0 := by
  have h := stdNormalCDF_stdNormalPPF (p := 1 / 2) (by norm_num) (by norm_num)
  have h2 : stdNormalCDF (stdNormalPPF (1 / 2)) = stdNormalCDF 0 := by
    rw [h, stdNormalCDF_zero]
  exact strictMono_stdNormalCDF.injective h2

/-- Standardization: the probability mass of `Normal(mu, sigma²)` below
`mu + sigma * y` is `Φ(y)`. -/
theorem integral_gaussian_Iic_standardize (mu sigma : ℝ) (hs : 0 < sigma) (y : ℝ) :
    ∫ t in Iic (mu + sigma * y), gaussianPDFReal mu ((sigma ^ 2).toNNReal) t
      = stdNormalCDF y := by
  have hσ : sigma ≠ 0 := ne_of_gt hs
  have himg : (fun x => sigma * x + mu) '' Iic y = Iic (mu + sigma * y) := by
    ext z
    constructor
    · rintro ⟨x, hx, rfl⟩
      simp only [mem_Iic] at hx ⊢
      nlinarith [mul_le_mul_of_nonneg_left hx hs.le]
    · intro hz
      rw [mem_Iic] at hz
      refine ⟨(z - mu) / sigma, ?_, ?_⟩
      · rw [mem_Iic, div_le_iff₀ hs]
        nlinarith
      · field_simp
  have hderiv : ∀ x ∈ Iic y, HasDerivWithinAt (fun x => sigma * x + mu) sigma (Iic y) x := by
    intro x _
    have h2 : HasDerivAt (fun z => sigma * z + mu) sigma x := by
      simpa using ((hasDerivAt_id x).const_mul sigma).add_const mu
    exact h2.hasDerivWithinAt
  have hinj : InjOn (fun x => sigma * x + mu) (Iic y) := by
    intro a _ b _ h
    dsimp at h
    exact mul_left_cancel₀ hσ (by linarith)
  have hsub := integral_image_eq_integral_abs_deriv_smul measurableSet_Iic hderiv hinj
    (gaussianPDFReal mu ((sigma ^ 2).toNNReal))
  rw [himg] at hsub
  rw [hsub]
  apply setIntegral_congr_fun measurableSet_Iic
  intro x _
  have hv : (((sigma ^ 2).toNNReal : ℝ≥0) : ℝ) = sigma ^ 2 :=
    Real.coe_toNNReal _ (sq_nonneg _)
  have hsqrt : Real.sqrt (2 * Real.pi * sigma ^ 2)
      = Real.sqrt (2 * Real.pi) * sigma := by
    rw [show (2 * Real.pi * sigma ^ 2 : ℝ) = (2 * Real.pi) * sigma ^ 2 by ring,
      Real.sqrt_mul (by positivity), Real.sqrt_sq hs.le]
  have hexp : -(sigma * x + mu - mu) ^ 2 / (2 * sigma ^ 2) = -(x - 0) ^ 2 / (2 * 1) := by
    have h1 : (sigma * x + mu - mu) ^ 2 = sigma ^ 2 * x ^ 2 := by ring
    rw [h1]
    field_simp
    ring
  have hne : Real.sqrt (2 * Real.pi) ≠ 0 := by positivity
  simp only [gaussianPDFReal, smul_eq_mul, hv, NNReal.coe_one]
  rw [hsqrt, hexp, abs_of_pos hs, mul_one]
  field_simp
  ring

/-- For valid parameters, the probability that `X ~ Normal(mu, sigma²)` is
(strictly) below `mu + sigma * Φ⁻¹(p)` is exactly `p`. -/
theorem gaussianReal_Iio_quantile (mu sigma p : ℝ) (hs : 0 < sigma)
    (h0 : 0 < p) (h1 : p < 1) :
    (gaussianReal mu ((sigma ^ 2).toNNReal)
      (Iio (mu + sigma * stdNormalPPF p))).toReal = p := by
  have hv : (sigma ^ 2).toNNReal ≠ 0 := by
    simp only [Ne, Real.toNNReal_eq_zero, not_le]
    positivity
  rw [gaussianReal_apply_eq_integral mu hv]
  rw [← MeasureTheory.integral_Iic_eq_integral_Iio]
  rw [integral_gaussian_Iic_standardize mu sigma hs (stdNormalPPF p)]
  rw [stdNormalCDF_stdNormalPPF h0 h1]
  exact ENNReal.toReal_ofReal h0.le

/-- In the valid parameter region, `calculate_analytical_var` returns the
plain float `analyticalVaR` (none of the scipy special-value branches is
taken). -/
theorem calculate_analytical_var_val (mu sigma alpha : ℝ) (hs : 0 < sigma)
    (h0 : 0 < alpha) (h1 : alpha < 1) :
    calculate_analytical_var mu sigma alpha
      = PyFloat.val (analyticalVaR mu sigma alpha) := by
  rw [calculate_analytical_var, norm_ppf, analyticalVaR]
  rw [if_neg (not_le.mpr hs), if_neg (by linarith), if_neg (by linarith),
    if_neg (by push_neg; constructor <;> linarith)]

/-! ### Claim theorems about the analytical VaR calculator -/

/-- C1: for every `mu`, every `sigma > 0` and every `alpha ∈ (0,1)`,
`calculate_analytical_var` returns (as a plain float) the value
`r = analyticalVaR mu sigma alpha` satisfying `P(X < r) = 1 - alpha` for
`X ~ Normal(mu, sigma)` — that is, the inverse cumulative distribution
function of `Normal(mu, sigma)` evaluated at `1 - alpha`; in particular
`calculate_analytical_var 0 1 (1/2)` is exactly `0.0`. -/
theorem claim_C1 (mu sigma alpha : ℝ) (hs : 0 < sigma) (h0 : 0 < alpha) (h1 : alpha < 1) :
    calculate_analytical_var mu sigma alpha
        = PyFloat.val (analyticalVaR mu sigma alpha) ∧
      (gaussianReal mu ((sigma ^ 2).toNNReal)
        (Iio (analyticalVaR mu sigma alpha))).toReal = 1 - alpha ∧
      calculate_analytical_var 0 1 (1 / 2) = PyFloat.val 0 := by
  refine ⟨calculate_analytical_var_val mu sigma alpha hs h0 h1, ?_, ?_⟩
  · have h := gaussianReal_Iio_quantile mu sigma (1 - alpha) hs (by linarith) (by linarith)
    simpa [analyticalVaR, normQuantile] using h
  · rw [calculate_analytical_var_val 0 1 (1 / 2) one_pos (by norm_num) (by norm_num)]
    have h12 : (1 : ℝ) - 1 / 2 = 1 / 2 := by norm_num
    rw [analyticalVaR, normQuantile, h12, stdNormalPPF_half]
    norm_num

theorem claim_C1_witness :
    calculate_analytical_var 0 1 (1 / 2) = PyFloat.val (analyticalVaR 0 1 (1 / 2)) ∧
      (gaussianReal 0 (((1 : ℝ) ^ 2).toNNReal)
        (Iio (analyticalVaR 0 1 (1 / 2)))).toReal = 1 - 1 / 2 ∧
      calculate_analytical_var 0 1 (1 / 2) = PyFloat.val 0 :=
  claim_C1 0 1 (1 / 2) one_pos (by norm_num) (by norm_num)

/-- C9: for fixed `mu` and fixed `sigma > 0`, the analytical VaR is strictly
decreasing in the confidence level on `(0,1)`. -/
theorem claim_C9 (mu sigma alpha₁ alpha₂ : ℝ) (hs : 0 < sigma) (h0 : 0 < alpha₁)
    (h12 : alpha₁ < alpha₂) (h1 : alpha₂ < 1) :
    analyticalVaR mu sigma alpha₂ < analyticalVaR mu sigma alpha₁ ∧
      calculate_analytical_var mu sigma alpha₁
        = PyFloat.val (analyticalVaR mu sigma alpha₁) ∧
      calculate_analytical_var mu sigma alpha₂
        = PyFloat.val (analyticalVaR mu sigma alpha₂) := by
  refine ⟨?_, calculate_analytical_var_val _ _ _ hs h0 (lt_trans h12 h1),
    calculate_analytical_var_val _ _ _ hs (lt_trans h0 h12) h1⟩
  have hppf : stdNormalPPF (1 - alpha₂) < stdNormalPPF (1 - alpha₁) :=
    stdNormalPPF_lt_stdNormalPPF (by linarith) (by linarith) (by linarith)
  rw [analyticalVaR, analyticalVaR, normQuantile, normQuantile]
  have hmul := mul_lt_mul_of_pos_left hppf hs
  linarith

theorem claim_C9_witness :
    analyticalVaR 0 1 (1 / 2) < analyticalVaR 0 1 (1 / 4) ∧
      calculate_analytical_var 0 1 (1 / 4) = PyFloat.val (analyticalVaR 0 1 (1 / 4)) ∧
      calculate_analytical_var 0 1 (1 / 2) = PyFloat.val (analyticalVaR 0 1 (1 / 2)) :=
  claim_C9 0 1 (1 / 4) (1 / 2) one_pos (by norm_num) (by norm_num) (by norm_num)

/-- C4 (code bug): for `alpha` outside `(0,1)` or `sigma ≤ 0` the code does
NOT fail with an `InvalidParameter` error; `scipy.stats.norm.ppf` silently
returns `+inf` (at `alpha = 0`), `-inf` (at `alpha = 1`) or `nan` (for
`sigma ≤ 0`), and execution continues. -/
theorem claim_C4 :
    calculate_analytical_var 0 1 0 = PyFloat.posInf ∧
      calculate_analytical_var 0 1 1 = PyFloat.negInf ∧
      calculate_analytical_var 0 (-1) (1 / 2) = PyFloat.nan ∧
      calculate_analytical_var 0 0 (1 / 2) = PyFloat.nan := by
  refine ⟨?_, ?_, ?_, ?_⟩ <;> norm_num [calculate_analytical_var, norm_ppf]

/-- C6 (code bug): a zero or negative error value reaching the log-log fit
is not surfaced as an `InvalidInput` error: `np.log` returns the float
`-inf` (resp. `nan`), which is then fed into `np.polyfit`. -/
theorem claim_C6 :
    np_log 0 = PyFloat.negInf ∧ np_log (-1) = PyFloat.nan := by
  constructor <;> norm_num [np_log]

/-- C5 (code bug): for a sample of size `N = 1` the code raises no
`InvalidSampleSize` error: `np.percentile` of a one-element sample simply
returns that element and the simulation proceeds. -/
theorem claim_C5 (x p : ℝ) : npPercentile [x] p = x := by
  simp [npPercentile]

/-! ### Claim theorems about the Monte Carlo estimator -/

/-- C3: with a sample of size at least `2` and `alpha ∈ (0,1)`, the linearly
interpolated empirical `(1-alpha)·100`-th percentile computed by the
estimator lies between every lower bound and every upper bound of the
sample — in particular between the sample minimum and the sample maximum. -/
theorem claim_C3 (xs : List ℝ) (alpha lo hi : ℝ) (hlen : 2 ≤ xs.length)
    (h0 : 0 < alpha) (h1 : alpha < 1)
    (hlo : ∀ x ∈ xs, lo ≤ x) (hhi : ∀ x ∈ xs, x ≤ hi) :
    lo ≤ npPercentile xs ((1 - alpha) * 100) ∧
      npPercentile xs ((1 - alpha) * 100) ≤ hi := by
  set p := (1 - alpha) * 100 with hp_def
  have hp0 : 0 < p := by
    have : (0 : ℝ) < 1 - alpha := by linarith
    positivity
  have hp100 : p < 100 := by
    rw [hp_def]
    nlinarith
  simp only [npPercentile]
  set s := xs.mergeSort with hs_def
  have hperm : s.Perm xs := List.mergeSort_perm xs _
  have hslen : s.length = xs.length := hperm.length_eq
  have hsort : s.Sorted (· ≤ ·) := List.sorted_mergeSort' xs
  have hn2 : (2 : ℝ) ≤ (xs.length : ℝ) := by exact_mod_cast hlen
  have hh0 : 0 ≤ p / 100 * ((xs.length : ℝ) - 1) := by
    have h1' : (0 : ℝ) ≤ p / 100 := by positivity
    nlinarith
  have hhlt : p / 100 * ((xs.length : ℝ) - 1) < (xs.length : ℝ) - 1 := by
    have hd : p / 100 < 1 := (div_lt_one (by norm_num)).mpr hp100
    nlinarith
  set i := ⌊p / 100 * ((xs.length : ℝ) - 1)⌋₊ with hi_def
  have hile : (i : ℝ) ≤ p / 100 * ((xs.length : ℝ) - 1) := Nat.floor_le hh0
  have hi1n : i + 1 < xs.length := by
    have hr : (i : ℝ) + 1 < (xs.length : ℝ) := by
      have := lt_of_le_of_lt hile hhlt
      linarith
    exact_mod_cast hr
  have hia : i < s.length := by omega
  have hib : i + 1 < s.length := by omega
  have hg0 : 0 ≤ p / 100 * ((xs.length : ℝ) - 1) - (i : ℝ) := sub_nonneg.mpr hile
  have hg1 : p / 100 * ((xs.length : ℝ) - 1) - (i : ℝ) ≤ 1 := by
    have := Nat.lt_floor_add_one (p / 100 * ((xs.length : ℝ) - 1))
    rw [← hi_def] at this
    linarith
  have ha_eq : s.getD i 0 = s.get ⟨i, hia⟩ := List.getD_eq_get s 0 hia
  have hb_eq : s.getD (i + 1) 0 = s.get ⟨i + 1, hib⟩ := List.getD_eq_get s 0 hib
  have hmema : s.get ⟨i, hia⟩ ∈ xs := hperm.subset (s.get_mem _ _)
  have hmemb : s.get ⟨i + 1, hib⟩ ∈ xs := hperm.subset (s.get_mem _ _)
  have hab : s.get ⟨i, hia⟩ ≤ s.get ⟨i + 1, hib⟩ :=
    hsort.rel_get_of_lt (Fin.mk_lt_mk.mpr (Nat.lt_succ_self i))
  rw [ha_eq, hb_eq]
  have hloa := hlo _ hmema
  have hhib := hhi _ hmemb
  have hprod0 := mul_nonneg hg0 (sub_nonneg.mpr hab)
  have hprod1 := mul_le_mul_of_nonneg_right hg1 (sub_nonneg.mpr hab)
  constructor <;> nlinarith

theorem claim_C3_witness :
    2 ≤ ([0, 1] : List ℝ).length ∧ (0 : ℝ) < 1 / 2 ∧ (1 / 2 : ℝ) < 1 ∧
      ((0 : ℝ) ≤ npPercentile [0, 1] ((1 - 1 / 2) * 100) ∧
        npPercentile [0, 1] ((1 - 1 / 2) * 100) ≤ 1) :=
  ⟨by norm_num, by norm_num, by norm_num,
    claim_C3 [0, 1] (1 / 2) 0 1 (by norm_num) (by norm_num) (by norm_num)
      (by intro x hx; simp at hx; rcases hx with rfl | rfl <;> norm_num)
      (by intro x hx; simp at hx; rcases hx with rfl | rfl <;> norm_num)⟩

theorem npMean_nonneg {xs : List ℝ} (h : ∀ x ∈ xs, 0 ≤ x) : 0 ≤ npMean xs :=
  div_nonneg (List.sum_nonneg h) (Nat.cast_nonneg _)

theorem getD_map_range {α : Type _} {n : ℕ} (f : ℕ → α) {i : ℕ} (hi : i < n) (d : α) :
    ((List.range n).map f).getD i d = f i := by
  rw [List.getD_eq_getElem _ _ (by simpa using hi)]
  simp

/-- C8: both simulation variants return one estimated-VaR entry and one
error entry per sample size, index-aligned with the sample-size sequence. -/
theorem claim_C8 (mu sigma confidence_level : ℝ) (sample_sizes : List ℕ)
    (draws₂ : ℕ → ℕ → List ℝ) (num_trials : ℕ) (draws₁ : ℕ → List ℝ) :
    (monte_carlo_var_simulation mu sigma confidence_level sample_sizes draws₂
        num_trials).2.1.length = sample_sizes.length ∧
      (monte_carlo_var_simulation mu sigma confidence_level sample_sizes draws₂
        num_trials).2.2.length = sample_sizes.length ∧
      (monte_carlo_var_simulation_single mu sigma confidence_level sample_sizes
        draws₁).2.1.length = sample_sizes.length ∧
      (monte_carlo_var_simulation_single mu sigma confidence_level sample_sizes
        draws₁).2.2.length = sample_sizes.length := by
  refine ⟨?_, ?_, ?_, ?_⟩ <;>
    simp [monte_carlo_var_simulation, monte_carlo_var_simulation_single]

/-- C2: in the multi-trial variant, the entry for the `i`-th sample size is
the arithmetic mean of the `num_trials` per-trial VaR estimates, and the
error entry is the arithmetic mean of the `num_trials` per-trial absolute
errors (the mean of the absolute errors, not the absolute error of the
mean). -/
theorem claim_C2 (mu sigma confidence_level : ℝ) (sample_sizes : List ℕ)
    (draws : ℕ → ℕ → List ℝ) (num_trials : ℕ) (hT : 1 ≤ num_trials)
    (i : ℕ) (hi : i < sample_sizes.length) :
    (monte_carlo_var_simulation mu sigma confidence_level sample_sizes draws
        num_trials).2.1.getD i 0
        = ((List.range num_trials).map fun t =>
            npPercentile (draws i t) ((1 - confidence_level) * 100)).sum
          / (num_trials : ℝ) ∧
      (monte_carlo_var_simulation mu sigma confidence_level sample_sizes draws
        num_trials).2.2.getD i 0
        = ((List.range num_trials).map fun t =>
            |npPercentile (draws i t) ((1 - confidence_level) * 100)
              - analyticalVaR mu sigma confidence_level|).sum
          / (num_trials : ℝ) := by
  constructor
  · simp only [monte_carlo_var_simulation, List.map_map]
    rw [getD_map_range _ hi]
    simp [Function.comp_def, npMean, List.map_map]
  · simp only [monte_carlo_var_simulation, List.map_map]
    rw [getD_map_range _ hi]
    simp [Function.comp_def, npMean, List.map_map]

theorem claim_C2_witness :
    1 ≤ 1 ∧
      ((monte_carlo_var_simulation 0 1 (3 / 4) ([2]) (fun _ _ => [0, 1]) 1).2.1.getD 0 0
          = ((List.range 1).map fun t =>
              npPercentile ((fun _ _ => ([0, 1] : List ℝ)) 0 t) ((1 - 3 / 4) * 100)).sum
            / ((1 : ℕ) : ℝ) ∧
        (monte_carlo_var_simulation 0 1 (3 / 4) ([2]) (fun _ _ => [0, 1]) 1).2.2.getD 0 0
          = ((List.range 1).map fun t =>
              |npPercentile ((fun _ _ => ([0, 1] : List ℝ)) 0 t) ((1 - 3 / 4) * 100)
                - analyticalVaR 0 1 (3 / 4)|).sum / ((1 : ℕ) : ℝ)) :=
  ⟨le_refl 1, claim_C2 0 1 (3 / 4) ([2]) (fun _ _ => [0, 1]) 1 (le_refl 1) 0 (by norm_num)⟩

/-- C10: every element of the error sequence returned by either variant is
nonnegative: each per-trial error is an absolute value, and the multi-trial
variant averages nonnegative values. -/
theorem claim_C10 (mu sigma confidence_level : ℝ) (sample_sizes : List ℕ)
    (draws₂ : ℕ → ℕ → List ℝ) (num_trials : ℕ) (draws₁ : ℕ → List ℝ) :
    (∀ e ∈ (monte_carlo_var_simulation mu sigma confidence_level sample_sizes draws₂
        num_trials).2.2, 0 ≤ e) ∧
      ∀ e ∈ (monte_carlo_var_simulation_single mu sigma confidence_level sample_sizes
        draws₁).2.2, 0 ≤ e := by
  constructor
  · intro e he
    simp only [monte_carlo_var_simulation, List.map_map, List.mem_map,
      List.mem_range, Function.comp_def] at he
    obtain ⟨j, -, rfl⟩ := he
    apply npMean_nonneg
    intro x hx
    simp only [List.mem_map, List.mem_range] at hx
    obtain ⟨t, -, rfl⟩ := hx
    exact abs_nonneg _
  · intro e he
    simp only [monte_carlo_var_simulation_single, List.map_map, List.mem_map,
      List.mem_range, Function.comp_def] at he
    obtain ⟨j, -, rfl⟩ := he
    exact abs_nonneg _

/-! ### The ordinary least-squares fit recovers an exact affine law -/

theorem list_sum_map_comb (l : List ℝ) (c d e : ℝ) :
    (l.map fun x => c * x ^ 2 + d * x + e).sum
      = c * (l.map fun x => x ^ 2).sum + d * l.sum + e * l.length := by
  induction l with
  | nil => simp
  | cons x t ih =>
    simp only [List.map_cons, List.sum_cons, List.length_cons, ih]
    push_cast
    ring

theorem list_sum_map_affine (l : List ℝ) (a b : ℝ) :
    (l.map fun x => a * x + b).sum = a * l.sum + b * l.length := by
  induction l with
  | nil => simp
  | cons x t ih =>
    simp only [List.map_cons, List.sum_cons, List.length_cons, ih]
    push_cast
    ring

theorem list_zipWith_mul_map (l : List ℝ) (f : ℝ → ℝ) :
    List.zipWith (· * ·) l (l.map f) = l.map fun x => x * f x := by
  induction l with
  | nil => rfl
  | cons x t ih => simp [ih]

theorem inner_sq_sum (l : List ℝ) (p : ℝ) :
    (l.map fun q => (p - q) ^ 2).sum
      = (l.length : ℝ) * p ^ 2 - 2 * p * l.sum + (l.map fun x => x ^ 2).sum := by
  have hfun : (fun q : ℝ => (p - q) ^ 2) = fun q : ℝ => 1 * q ^ 2 + -2 * p * q + p ^ 2 := by
    funext q
    ring
  rw [hfun, list_sum_map_comb]
  ring

theorem double_sq_sum (l : List ℝ) :
    (l.map fun p => (l.map fun q => (p - q) ^ 2).sum).sum
      = 2 * ((l.length : ℝ) * (l.map fun x => x ^ 2).sum - l.sum ^ 2) := by
  have hfun : (fun p : ℝ => (l.map fun q => (p - q) ^ 2).sum)
      = fun p : ℝ => (l.length : ℝ) * p ^ 2 + -2 * l.sum * p
          + (l.map fun x => x ^ 2).sum := by
    funext p
    rw [inner_sq_sum]
    ring
  rw [hfun, list_sum_map_comb]
  ring

theorem ols_denom_pos (l : List ℝ) {a b : ℝ} (ha : a ∈ l) (hb : b ∈ l) (hab : a ≠ b) :
    0 < (l.length : ℝ) * (l.map fun x => x ^ 2).sum - l.sum ^ 2 := by
  have hsq : 0 < (a - b) ^ 2 := by
    rcases (sub_ne_zero.mpr hab).lt_or_lt with h | h
    · nlinarith
    · nlinarith
  have h2 : (a - b) ^ 2 ≤ (l.map fun q => (a - q) ^ 2).sum := by
    refine List.single_le_sum (fun x hx => ?_) _ (List.mem_map_of_mem _ hb)
    simp only [List.mem_map] at hx
    obtain ⟨q, -, rfl⟩ := hx
    positivity
  have h3 : (l.map fun q => (a - q) ^ 2).sum
      ≤ (l.map fun p => (l.map fun q => (p - q) ^ 2).sum).sum := by
    refine List.single_le_sum (fun x hx => ?_) _ (List.mem_map_of_mem _ ha)
    simp only [List.mem_map] at hx
    obtain ⟨p, -, rfl⟩ := hx
    refine List.sum_nonneg fun y hy => ?_
    simp only [List.mem_map] at hy
    obtain ⟨q, -, rfl⟩ := hy
    positivity
  have h4 := double_sq_sum l
  linarith

/-- If the dependent values follow the affine law `y = a·x + b` exactly and
the regressors are not all equal, the closed-form least-squares fit
recovers `a` and `b` exactly. -/
theorem polyfit_recovers_affine (l : List ℝ) (a b : ℝ)
    (hD : (l.length : ℝ) * (l.map fun x => x ^ 2).sum - l.sum ^ 2 ≠ 0) :
    polyfitSlope l (l.map fun x => a * x + b) = a ∧
      polyfitIntercept l (l.map fun x => a * x + b) = b := by
  have hn : (l.length : ℝ) ≠ 0 := by
    intro h
    apply hD
    have hl : l = [] := List.length_eq_zero.mp (by exact_mod_cast h)
    subst hl
    simp
  have hslope : polyfitSlope l (l.map fun x => a * x + b) = a := by
    rw [polyfitSlope, list_zipWith_mul_map]
    have hfun : (fun x : ℝ => x * (a * x + b)) = fun x : ℝ => a * x ^ 2 + b * x + 0 := by
      funext x
      ring
    rw [hfun, list_sum_map_comb, list_sum_map_affine]
    have hnum : (l.length : ℝ) * (a * (l.map fun x => x ^ 2).sum + b * l.sum + 0 * l.length)
        - l.sum * (a * l.sum + b * l.length)
        = a * ((l.length : ℝ) * (l.map fun x => x ^ 2).sum - l.sum ^ 2) := by
      ring
    rw [hnum, mul_div_assoc, div_self hD, mul_one]
  refine ⟨hslope, ?_⟩
  rw [polyfitIntercept, hslope, list_sum_map_affine]
  field_simp

/-- C7: round-trip of the power-law fitter.  If `error[i] = C·N[i]^(-1/2)`
exactly, with `C > 0` and at least two distinct positive sample sizes, the
least-squares regression of `log error` on `log N` (as computed by
`np.polyfit(log N, log err, 1)`) returns slope `-0.5` and intercept
`log C` — exactly, hence within `1e-6`. -/
theorem claim_C7 (C : ℝ) (ns : List ℝ) (hC : 0 < C) (hpos : ∀ N ∈ ns, 0 < N)
    (a b : ℝ) (ha : a ∈ ns) (hb : b ∈ ns) (hab : a ≠ b) :
    |polyfitSlope (ns.map Real.log)
        ((ns.map fun N => C * N ^ (-(1 / 2) : ℝ)).map Real.log) - (-(1 / 2))|
      ≤ 1 / 1000000 ∧
      |polyfitIntercept (ns.map Real.log)
        ((ns.map fun N => C * N ^ (-(1 / 2) : ℝ)).map Real.log) - Real.log C|
      ≤ 1 / 1000000 := by
  have hys : (ns.map fun N => C * N ^ (-(1 / 2) : ℝ)).map Real.log
      = (ns.map Real.log).map fun x => -(1 / 2) * x + Real.log C := by
    rw [List.map_map, List.map_map]
    apply List.map_congr_left
    intro N hN
    simp only [Function.comp_apply]
    rw [Real.log_mul (ne_of_gt hC) (ne_of_gt (Real.rpow_pos_of_pos (hpos N hN) _)),
      Real.log_rpow (hpos N hN)]
    ring
  have hlogab : Real.log a ≠ Real.log b := by
    intro h
    apply hab
    have h2 := congrArg Real.exp h
    rwa [Real.exp_log (hpos a ha), Real.exp_log (hpos b hb)] at h2
  have hD := (ols_denom_pos (ns.map Real.log) (List.mem_map_of_mem _ ha)
    (List.mem_map_of_mem _ hb) hlogab).ne'
  obtain ⟨h1, h2⟩ := polyfit_recovers_affine (ns.map Real.log) (-(1 / 2)) (Real.log C) hD
  rw [hys, h1, h2]
  norm_num

theorem claim_C7_witness :
    (0 : ℝ) < 1 ∧ (1 : ℝ) ≠ 2 ∧
      (|polyfitSlope (([1, 2] : List ℝ).map Real.log)
          ((([1, 2] : List ℝ).map fun N => 1 * N ^ (-(1 / 2) : ℝ)).map Real.log)
          - (-(1 / 2))| ≤ 1 / 1000000 ∧
        |polyfitIntercept (([1, 2] : List ℝ).map Real.log)
          ((([1, 2] : List ℝ).map fun N => 1 * N ^ (-(1 / 2) : ℝ)).map Real.log)
          - Real.log 1| ≤ 1 / 1000000) :=
  ⟨one_pos, by norm_num,
    claim_C7 1 ([1, 2]) one_pos
      (by
        intro N hN
        simp only [List.mem_cons, List.not_mem_nil, or_false] at hN
        rcases hN with rfl | rfl <;> norm_num)
      1 2 (by simp) (by simp) (by norm_num)⟩

end MCVaR
